import Mathlib

/-!
Shallow embedding of the text-mining core of `inst/Python/Textmining.py`
(vanhasseltlab/ImmuneMetAtlas).

Conventions of the embedding:
* A Python `dict` is an association list with insert-or-overwrite update
  (`dinsert`) and first-match lookup (`dget`); this preserves Python's
  one-entry-per-key semantics and insertion order.
* A Python `set(l)` built from a list `l` is modelled as `l.dedup`
  (iteration order of a Python set is arbitrary; all properties proved
  below are order-insensitive, stated via membership and counts).
* HTTP services are modelled as explicit function arguments (a server is
  a function from the request data to the decoded JSON payload); a raised
  Python exception (`KeyError`, `IndexError`) is modelled as
  `Except.error ()` / `Option.none`.
* The unbounded `while True` pagination loop is modelled with explicit
  fuel; running out of fuel returns `none` (the real loop would still be
  running), so every `some` result corresponds to an actual return of the
  Python function.
-/

namespace ImmuneMetAtlas

/-- Association-list model of a Python `dict`. -/
abbrev Dict (α β : Type) := List (α × β)

/-- `d[k] = v`: overwrite the existing entry for `k` in place, else append. -/
def dinsert {α β : Type} [DecidableEq α] (d : Dict α β) (k : α) (v : β) : Dict α β :=
  match d with
  | [] => [(k, v)]
  | (a, b) :: rest => if a = k then (k, v) :: rest else (a, b) :: dinsert rest k v

/-- `d.get(k)`: lookup of a key in a Python dict. -/
def dget {α β : Type} [DecidableEq α] (d : Dict α β) (k : α) : Option β :=
  match d with
  | [] => none
  | (a, b) :: rest => if a = k then some b else dget rest k

/-- `d[k]` in a context where a missing key raises `KeyError`. -/
def lookupE {α β : Type} [DecidableEq α] (d : Dict α β) (k : α) : Except Unit β :=
  match dget d k with
  | some v => .ok v
  | none => .error ()

/-- Build a dict from a list of key-value pairs (later pairs overwrite). -/
def dict_of_pairs {α β : Type} [DecidableEq α] (pairs : List (α × β)) : Dict α β :=
  pairs.foldl (fun d kv => dinsert d kv.1 kv.2) []

/-- Structural helper for `chunks50`: the fuel bounds the number of
chunks produced (one chunk consumes at least one element, so any fuel at
least the list length gives the untruncated chunking). -/
def chunks50Fuel {α : Type} : Nat → List α → List (List α)
  | _, [] => []
  | 0, a :: t => [a :: t]
  | fuel + 1, a :: t => ((a :: t).take 50) :: chunks50Fuel fuel ((a :: t).drop 50)

/-- `for i in range(0, len(l), 50): l[i : i + 50]` — the fixed-size batching
used by `EBI` (`self.n = 50`). -/
def chunks50 {α : Type} (l : List α) : List (List α) :=
  chunks50Fuel l.length l

/-! ### Basic dict lemmas -/

theorem mem_dinsert {α β : Type} [DecidableEq α] (d : Dict α β) (k : α) (v : β)
    (p : α × β) : p ∈ dinsert d k v → p ∈ d ∨ p = (k, v) := by
  induction d with
  | nil => intro h; right; simpa [dinsert] using h
  | cons hd tl ih =>
    obtain ⟨a, b⟩ := hd
    intro h
    by_cases hak : a = k
    · simp only [dinsert, if_pos hak, List.mem_cons] at h
      rcases h with h | h
      · right; exact h
      · left; exact List.mem_cons_of_mem _ h
    · simp only [dinsert, if_neg hak, List.mem_cons] at h
      rcases h with h | h
      · left; exact h ▸ List.mem_cons_self _ _
      · rcases ih h with h' | h'
        · left; exact List.mem_cons_of_mem _ h'
        · right; exact h'

theorem dget_mem {α β : Type} [DecidableEq α] (d : Dict α β) (k : α) (v : β) :
    dget d k = some v → (k, v) ∈ d := by
  induction d with
  | nil => intro h; simp [dget] at h
  | cons hd tl ih =>
    obtain ⟨a, b⟩ := hd
    intro h
    by_cases hak : a = k
    · simp only [dget, if_pos hak] at h
      subst hak
      rw [Option.some_inj] at h
      subst h
      exact List.mem_cons_self _ _
    · simp only [dget, if_neg hak] at h
      exact List.mem_cons_of_mem _ (ih h)

theorem lookupE_mem {α β : Type} [DecidableEq α] (d : Dict α β) (k : α) (v : β)
    (h : lookupE d k = .ok v) : (k, v) ∈ d := by
  unfold lookupE at h
  cases hd : dget d k with
  | none => rw [hd] at h; exact absurd h (by simp)
  | some w =>
    rw [hd] at h
    have : w = v := by simpa using h
    exact dget_mem d k v (this ▸ hd)

theorem foldl_dinsert_mem {α β : Type} [DecidableEq α] (pairs : List (α × β)) :
    ∀ (d : Dict α β) (p : α × β),
      p ∈ pairs.foldl (fun d kv => dinsert d kv.1 kv.2) d → p ∈ d ∨ p ∈ pairs := by
  induction pairs with
  | nil => intro d p hd; left; exact hd
  | cons hd tl ih =>
    intro d p hfold
    rcases ih (dinsert d hd.1 hd.2) p hfold with h' | h'
    · rcases mem_dinsert _ _ _ _ h' with h'' | h''
      · left; exact h''
      · right; exact h'' ▸ List.mem_cons_self _ _
    · right; exact List.mem_cons_of_mem _ h'

theorem mem_dict_of_pairs {α β : Type} [DecidableEq α] (pairs : List (α × β))
    (p : α × β) (h : p ∈ dict_of_pairs pairs) : p ∈ pairs := by
  rcases foldl_dinsert_mem pairs [] p h with h' | h'
  · simp at h'
  · exact h'

/-- Keys present after `dinsert`: unchanged when the key exists, appended else. -/
theorem dinsert_keys {α β : Type} [DecidableEq α] (d : Dict α β) (k : α) (v : β) :
    (dinsert d k v).map Prod.fst = if k ∈ d.map Prod.fst then d.map Prod.fst
      else d.map Prod.fst ++ [k] := by
  induction d with
  | nil => simp [dinsert]
  | cons hd tl ih =>
    obtain ⟨a, b⟩ := hd
    by_cases hak : a = k
    · subst hak; simp [dinsert]
    · have hka : ¬ k = a := fun h => hak h.symm
      simp only [dinsert, if_neg hak, List.map_cons, ih]
      by_cases hk : k ∈ tl.map Prod.fst
      · simp [hk, List.mem_cons, hka]
      · simp [hk, List.mem_cons, hka]

/-- `dinsert` preserves distinctness of keys. -/
theorem dinsert_nodup_keys {α β : Type} [DecidableEq α] (d : Dict α β) (k : α) (v : β)
    (h : (d.map Prod.fst).Nodup) : ((dinsert d k v).map Prod.fst).Nodup := by
  rw [dinsert_keys]
  by_cases hk : k ∈ d.map Prod.fst
  · simpa [hk]
  · simp only [hk, if_false]
    rw [List.nodup_append]
    refine ⟨h, List.nodup_singleton _, ?_⟩
    intro x hx hxk
    simp only [List.mem_singleton] at hxk
    subst hxk
    exact hk hx

/-! ### chunks50 lemmas -/

theorem chunks50Fuel_irrel {α : Type} :
    ∀ (f1 f2 : Nat) (l : List α), l.length ≤ f1 → l.length ≤ f2 →
      chunks50Fuel f1 l = chunks50Fuel f2 l := by
  intro f1
  induction f1 with
  | zero =>
    intro f2 l h1 h2
    have : l = [] := List.eq_nil_of_length_eq_zero (Nat.le_zero.mp h1)
    subst this
    cases f2 <;> rfl
  | succ f ih =>
    intro f2 l h1 h2
    cases l with
    | nil => cases f2 <;> rfl
    | cons a t =>
      cases f2 with
      | zero => simp at h2
      | succ f2' =>
        simp only [chunks50Fuel]
        congr 1
        apply ih
        · simp only [List.length_drop, List.length_cons] at h1 ⊢
          omega
        · simp only [List.length_drop, List.length_cons] at h2 ⊢
          omega

theorem chunks50_nil {α : Type} : chunks50 ([] : List α) = [] := rfl

theorem chunks50_cons {α : Type} (a : α) (l : List α) :
    chunks50 (a :: l) = ((a :: l).take 50) :: chunks50 ((a :: l).drop 50) := by
  show chunks50Fuel (a :: l).length (a :: l) = _
  simp only [List.length_cons, chunks50Fuel]
  congr 1
  apply chunks50Fuel_irrel
  · simp only [List.length_drop, List.length_cons]
    omega
  · exact le_rfl

theorem chunks50_flatten_aux {α : Type} :
    ∀ (n : Nat) (l : List α), l.length ≤ n → (chunks50 l).flatten = l := by
  intro n
  induction n with
  | zero =>
    intro l hl
    have : l = [] := List.eq_nil_of_length_eq_zero (Nat.le_zero.mp hl)
    subst this
    rfl
  | succ n ih =>
    intro l hl
    cases l with
    | nil => rfl
    | cons a t =>
      rw [chunks50_cons, List.flatten_cons,
        ih _ (by simp only [List.length_drop, List.length_cons] at hl ⊢; omega),
        List.take_append_drop]

theorem chunks50_flatten {α : Type} (l : List α) : (chunks50 l).flatten = l :=
  chunks50_flatten_aux l.length l le_rfl

/-! ### `TextMining.search` — paginated literature search

The Europe PMC response fields consumed by `search` are `hitCount`,
`resultList.result[].id` and `nextCursorMark`. -/

/-- One decoded page response of the literature-search service. -/
structure Response where
  hitCount : Nat
  ids : List String
  nextCursorMark : String
  deriving DecidableEq

/-- The `while True` loop body of `TextMining.search`, with explicit fuel.
Per iteration: fetch the page for the current cursor, append its ids, stop
when `hitcount == 0 or cursor == res["nextCursorMark"]`, else continue with
the new cursor.  Returns the accumulated ids together with the number of
requests issued; `none` models a loop still running after `fuel` requests. -/
def searchLoop (server : String → Response) :
    Nat → List String → String → Option (List String × Nat)
  | 0, _, _ => none
  | fuel + 1, ids, cursor =>
    let res := server cursor
    let ids := ids ++ res.ids
    if res.hitCount = 0 ∨ cursor = res.nextCursorMark then
      some (ids, 1)
    else
      match searchLoop server fuel ids res.nextCursorMark with
      | some (out, n) => some (out, n + 1)
      | none => none

/-- `TextMining.search(term)` for a fixed term: the loop starts with
`ids = []` and `cursor = "*"`; only the id list is returned. -/
def search (server : String → Response) (fuel : Nat) : Option (List String) :=
  (searchLoop server fuel [] "*").map Prod.fst

/-- The id lists of the first `n` pages served along the cursor chain
starting at `cursor` (page `i+1` is fetched at the `nextCursorMark` of
page `i`). -/
def pageIds (server : String → Response) : Nat → String → List (List String)
  | 0, _ => []
  | n + 1, cursor => (server cursor).ids :: pageIds server n (server cursor).nextCursorMark

/-! ### `TextMining.search_all` — per-term dispatch

The thread pool resolves each future in submission order
(`for i, f in enumerate(futures): ids = f.result()`), and each term's
result depends only on that term, so the collected mapping is the
sequential fold below; `dic[term] = ids` only `if len(ids) > 0`. -/

/-- `TextMining.search_all(list_of_terms, type)`, abstracted over the
per-term search result `searchFn` (what `self.search(term)` returns). -/
def search_all (list_of_terms : List String) (searchFn : String → List String) :
    Dict String (List String) :=
  list_of_terms.foldl
    (fun dic term =>
      let ids := searchFn term
      if ids.length > 0 then dinsert dic term ids else dic)
    []

/-! ### `find_overlap` — the OverlapEngine -/

/-- `find_overlap(mets, gos)`: for every `(go, go_ids)` entry and every
`(met, met_ids)` entry, one row `[go, met, inter]` per element `inter` of
`set(go_ids) & set(met_ids)`.  The Python set intersection contains each
common id exactly once; it is modelled as `go_ids.dedup.filter (· ∈ met_ids)`,
which has the same elements with the same multiplicity (namely one). -/
def find_overlap (mets gos : Dict String (List String)) :
    List (String × String × String) :=
  gos.flatMap (fun g =>
    mets.flatMap (fun m =>
      ((g.2.dedup.filter (fun p => p ∈ m.2)).map (fun p => (g.1, m.1, p)))))

/-! ### Pagination lemmas (claims C2, C4) -/

/-- Unfolding of one loop iteration. -/
theorem searchLoop_succ (server : String → Response) (fuel : Nat)
    (ids : List String) (cursor : String) :
    searchLoop server (fuel + 1) ids cursor =
      if (server cursor).hitCount = 0 ∨ cursor = (server cursor).nextCursorMark then
        some (ids ++ (server cursor).ids, 1)
      else
        match searchLoop server fuel (ids ++ (server cursor).ids)
            (server cursor).nextCursorMark with
        | some (out, n) => some (out, n + 1)
        | none => none := rfl

/-- Every return of the loop has issued at least one request. -/
theorem searchLoop_requests_pos (server : String → Response) :
    ∀ (fuel : Nat) (ids : List String) (cursor : String) (out : List String) (n : Nat),
      searchLoop server fuel ids cursor = some (out, n) → 1 ≤ n := by
  intro fuel
  induction fuel with
  | zero => intro ids cursor out n h; simp [searchLoop] at h
  | succ fuel ih =>
    intro ids cursor out n h
    rw [searchLoop_succ] at h
    by_cases hc : (server cursor).hitCount = 0 ∨ cursor = (server cursor).nextCursorMark
    · rw [if_pos hc] at h
      cases h
      exact le_rfl
    · rw [if_neg hc] at h
      cases hrec : searchLoop server fuel (ids ++ (server cursor).ids)
          (server cursor).nextCursorMark with
      | none => rw [hrec] at h; exact absurd h (by simp)
      | some p =>
        obtain ⟨o, m⟩ := p
        rw [hrec] at h
        simp only [Option.some_inj, Prod.mk.injEq] at h
        omega

/-- The accumulated ids are exactly the concatenation of the id lists of the
`n` pages consumed along the cursor chain. -/
theorem searchLoop_flatten_pages (server : String → Response) :
    ∀ (fuel : Nat) (ids : List String) (cursor : String) (out : List String) (n : Nat),
      searchLoop server fuel ids cursor = some (out, n) →
      out = ids ++ (pageIds server n cursor).flatten := by
  intro fuel
  induction fuel with
  | zero => intro ids cursor out n h; simp [searchLoop] at h
  | succ fuel ih =>
    intro ids cursor out n h
    rw [searchLoop_succ] at h
    by_cases hc : (server cursor).hitCount = 0 ∨ cursor = (server cursor).nextCursorMark
    · rw [if_pos hc] at h
      simp only [Option.some_inj, Prod.mk.injEq] at h
      obtain ⟨hout, hn⟩ := h
      subst hout
      rw [← hn]
      simp [pageIds]
    · rw [if_neg hc] at h
      cases hrec : searchLoop server fuel (ids ++ (server cursor).ids)
          (server cursor).nextCursorMark with
      | none => rw [hrec] at h; exact absurd h (by simp)
      | some p =>
        obtain ⟨o, m⟩ := p
        rw [hrec] at h
        simp only [Option.some_inj, Prod.mk.injEq] at h
        obtain ⟨hout, hn⟩ := h
        subst hout
        rw [← hn]
        have := ih _ _ _ _ hrec
        simp only [pageIds, List.flatten_cons, ← List.append_assoc]
        exact this

/-- A concrete server that always echoes back the cursor it was given. -/
def echoPageServer : String → Response := fun c => ⟨7, ["p1"], c⟩

/-- A concrete server that serves the id "p1" on two consecutive pages. -/
def dupPageServer : String → Response := fun c =>
  if c = "*" then ⟨5, ["p1"], "c1"⟩ else ⟨0, ["p1"], "c2"⟩

/-- C2: the per-term pagination loop returns after exactly one further
request from a given state iff the page fetched there reports
`hitCount == 0` or a `nextCursorMark` identical to the cursor just used;
in particular against a server that always returns the cursor it was
given, the loop issues exactly one request and returns the ids collected
so far. -/
theorem search_pagination_termination :
    (∀ (server : String → Response) (fuel : Nat) (ids : List String) (cursor : String),
      searchLoop server (fuel + 1) ids cursor = some (ids ++ (server cursor).ids, 1) ↔
        ((server cursor).hitCount = 0 ∨ cursor = (server cursor).nextCursorMark)) ∧
    (∀ (server : String → Response), (∀ c, (server c).nextCursorMark = c) →
      ∀ (fuel : Nat) (ids : List String) (cursor : String),
        searchLoop server (fuel + 1) ids cursor = some (ids ++ (server cursor).ids, 1)) := by
  have key : ∀ (server : String → Response) (fuel : Nat) (ids : List String) (cursor : String),
      searchLoop server (fuel + 1) ids cursor = some (ids ++ (server cursor).ids, 1) ↔
        ((server cursor).hitCount = 0 ∨ cursor = (server cursor).nextCursorMark) := by
    intro server fuel ids cursor
    constructor
    · intro h
      by_contra hc
      rw [searchLoop_succ, if_neg hc] at h
      cases hrec : searchLoop server fuel (ids ++ (server cursor).ids)
          (server cursor).nextCursorMark with
      | none => rw [hrec] at h; exact absurd h (by simp)
      | some p =>
        obtain ⟨o, m⟩ := p
        rw [hrec] at h
        simp only [Option.some_inj, Prod.mk.injEq] at h
        have := searchLoop_requests_pos server fuel _ _ _ _ hrec
        omega
    · intro hc
      rw [searchLoop_succ, if_pos hc]
  refine ⟨key, ?_⟩
  intro server hecho fuel ids cursor
  exact (key server fuel ids cursor).mpr (Or.inr (hecho cursor).symm)

/-- Witness for C2: the echo server stops after the very first request. -/
theorem search_pagination_termination_witness :
    searchLoop echoPageServer 1 [] "*" = some (["p1"], 1) := by
  have h := search_pagination_termination.2 echoPageServer (fun _ => rfl) 0 [] "*"
  simpa using h

/-- C4 (amended): the collection returned by `TextMining.search` is the
in-order concatenation of the id lists of every page consumed — it is not
deduplicated, so an id served on more than one consumed page occurs more
than once. -/
theorem search_accumulates_pages (server : String → Response) (fuel : Nat)
    (out : List String) (h : search server fuel = some out) :
    ∃ n, 1 ≤ n ∧ out = (pageIds server n "*").flatten := by
  unfold search at h
  cases hl : searchLoop server fuel [] "*" with
  | none => rw [hl] at h; exact absurd h (by simp)
  | some p =>
    obtain ⟨o, n⟩ := p
    rw [hl] at h
    have h' : o = out := by simpa using h
    subst h'
    refine ⟨n, searchLoop_requests_pos server fuel _ _ _ _ hl, ?_⟩
    have h2 := searchLoop_flatten_pages server fuel _ _ _ _ hl
    rwa [List.nil_append] at h2

/-- Witness for the amended C4 statement at a concrete server. -/
theorem search_accumulates_pages_witness :
    ∃ n, 1 ≤ n ∧ (["p1", "p1"] : List String) = (pageIds dupPageServer n "*").flatten :=
  search_accumulates_pages dupPageServer 2 ["p1", "p1"] rfl

/-- Counterexample to C4 as stated: a server that reports id "p1" on two
consecutive pages makes `search` return "p1" twice — the returned
collection is not deduplicated. -/
theorem search_not_deduplicated_counterexample :
    search dupPageServer 2 = some ["p1", "p1"] ∧
      ¬ (["p1", "p1"] : List String).Nodup := by
  exact ⟨rfl, by decide⟩

/-! ### `search_all` lemmas (claim C5) -/

theorem dget_dinsert_ne {α β : Type} [DecidableEq α] (d : Dict α β) (k t : α) (v : β)
    (hkt : k ≠ t) : dget (dinsert d k v) t = dget d t := by
  induction d with
  | nil => simp [dinsert, dget, hkt]
  | cons hd tl ih =>
    obtain ⟨a, b⟩ := hd
    by_cases hak : a = k
    · subst hak
      simp only [dinsert, if_pos rfl, dget, if_neg hkt]
    · simp only [dinsert, if_neg hak, dget]
      by_cases hat : a = t
      · simp [hat]
      · simp only [if_neg hat]
        exact ih

/-- C5: a term whose search yields an empty paper-id collection is absent
from the mapping returned by `search_all` (zero-hit terms are dropped,
not stored as empty entries). -/
theorem search_all_drops_empty_terms (list_of_terms : List String)
    (searchFn : String → List String) (t : String) (h : searchFn t = []) :
    dget (search_all list_of_terms searchFn) t = none := by
  suffices H : ∀ dic : Dict String (List String), dget dic t = none →
      dget (list_of_terms.foldl
        (fun dic term =>
          let ids := searchFn term
          if ids.length > 0 then dinsert dic term ids else dic) dic) t = none by
    exact H [] rfl
  induction list_of_terms with
  | nil => intro dic hdic; exact hdic
  | cons term rest ih =>
    intro dic hdic
    simp only [List.foldl_cons]
    apply ih
    by_cases hterm : term = t
    · subst hterm
      simp [h, hdic]
    · by_cases hlen : (searchFn term).length > 0
      · simpa [hlen] using (dget_dinsert_ne dic term t _ hterm).trans hdic
      · simpa [hlen] using hdic

/-- Witness for C5: the zero-hit term "a" is absent from the mapping. -/
theorem search_all_drops_empty_terms_witness :
    dget (search_all ["a", "b"] (fun x => if x = "b" then ["p7"] else [])) "a" = none :=
  search_all_drops_empty_terms ["a", "b"] (fun x => if x = "b" then ["p7"] else []) "a" rfl

/-! ### `find_overlap` lemmas (claim C1) -/

/-- The rows that one `(go, go_ids)` entry contributes to `find_overlap`. -/
def overlapRowsFor (g : String) (gids : List String) (mets : Dict String (List String)) :
    List (String × String × String) :=
  mets.flatMap (fun m => ((gids.dedup.filter (fun p => p ∈ m.2)).map (fun p => (g, m.1, p))))

theorem find_overlap_eq (mets gos : Dict String (List String)) :
    find_overlap mets gos = gos.flatMap (fun e => overlapRowsFor e.1 e.2 mets) := rfl

theorem mem_overlapRowsFor {g' : String} {gids : List String}
    {mets : Dict String (List String)} {g m p : String} :
    (g, m, p) ∈ overlapRowsFor g' gids mets ↔
      g = g' ∧ ∃ mids, (m, mids) ∈ mets ∧ p ∈ gids ∧ p ∈ mids := by
  simp only [overlapRowsFor, List.mem_flatMap, List.mem_map, List.mem_filter,
    List.mem_dedup, decide_eq_true_eq, Prod.mk.injEq]
  constructor
  · rintro ⟨e, he, q, ⟨⟨hqg, hqm⟩, hg, hm, hq⟩⟩
    subst hq
    exact ⟨hg.symm, e.2, by rwa [← hm], hqg, hqm⟩
  · rintro ⟨hg, mids, hmem, hpg, hpm⟩
    exact ⟨(m, mids), hmem, p, ⟨⟨hpg, hpm⟩, hg.symm, rfl, rfl⟩⟩

theorem mem_find_overlap {mets gos : Dict String (List String)} {g m p : String} :
    (g, m, p) ∈ find_overlap mets gos ↔
      ∃ gids, (g, gids) ∈ gos ∧ ∃ mids, (m, mids) ∈ mets ∧ p ∈ gids ∧ p ∈ mids := by
  rw [find_overlap_eq]
  simp only [List.mem_flatMap]
  constructor
  · rintro ⟨e, he, hrow⟩
    rw [mem_overlapRowsFor] at hrow
    obtain ⟨hg, mids, hmm, hpg, hpm⟩ := hrow
    refine ⟨e.2, ?_, mids, hmm, hpg, hpm⟩
    have hge : (g, e.2) = e := by rw [hg]
    rwa [hge]
  · rintro ⟨gids, hgg, mids, hmm, hpg, hpm⟩
    exact ⟨(g, gids), hgg, mem_overlapRowsFor.mpr ⟨rfl, mids, hmm, hpg, hpm⟩⟩

theorem overlapRowsFor_cons (g : String) (gids : List String)
    (e : String × List String) (rest : Dict String (List String)) :
    overlapRowsFor g gids (e :: rest) =
      ((gids.dedup.filter (fun p => p ∈ e.2)).map (fun p => (g, e.1, p))) ++
        overlapRowsFor g gids rest := by
  simp [overlapRowsFor]

theorem count_overlapRowsFor_not_key (g : String) (gids : List String)
    (mets : Dict String (List String)) (m p : String)
    (hm : m ∉ mets.map Prod.fst) :
    List.count (g, m, p) (overlapRowsFor g gids mets) = 0 := by
  rw [List.count_eq_zero]
  intro hmem
  obtain ⟨-, mids, hmm, -, -⟩ := mem_overlapRowsFor.mp hmem
  exact hm (List.mem_map.mpr ⟨(m, mids), hmm, rfl⟩)

theorem count_filter_dedup (gids mids : List String) (p : String) :
    List.count p (gids.dedup.filter (fun q => q ∈ mids)) =
      if p ∈ gids ∧ p ∈ mids then 1 else 0 := by
  by_cases hp : p ∈ gids ∧ p ∈ mids
  · rw [if_pos hp]
    refine List.count_eq_one_of_mem ((List.nodup_dedup gids).filter _) ?_
    rw [List.mem_filter]
    exact ⟨List.mem_dedup.mpr hp.1, by simpa using hp.2⟩
  · rw [if_neg hp, List.count_eq_zero]
    intro hmem
    rw [List.mem_filter] at hmem
    exact hp ⟨List.mem_dedup.mp hmem.1, by simpa using hmem.2⟩

theorem count_map_triple (l : List String) (g m p : String) :
    List.count (g, m, p) (l.map (fun q => (g, m, q))) = List.count p l := by
  induction l with
  | nil => simp
  | cons a t ih =>
    simp only [List.map_cons, List.count_cons, ih]
    congr 1
    by_cases hap : a = p
    · subst hap; simp
    · simp [hap]

theorem count_overlapRowsFor (g : String) (gids : List String)
    (mets : Dict String (List String)) (hm : (mets.map Prod.fst).Nodup)
    (m : String) (mids : List String) (hmem : (m, mids) ∈ mets) (p : String) :
    List.count (g, m, p) (overlapRowsFor g gids mets) =
      if p ∈ gids ∧ p ∈ mids then 1 else 0 := by
  induction mets with
  | nil => simp at hmem
  | cons e rest ih =>
    rw [overlapRowsFor_cons, List.count_append]
    rw [List.map_cons, List.nodup_cons] at hm
    rcases List.mem_cons.mp hmem with heq | hrest
    · have he : e = (m, mids) := heq.symm
      subst he
      rw [count_map_triple, count_filter_dedup,
        count_overlapRowsFor_not_key g gids rest m p hm.1]
      simp
    · have hme : m ≠ e.1 := by
        intro hcontra
        exact hm.1 (hcontra ▸ List.mem_map.mpr ⟨(m, mids), hrest, rfl⟩)
      have hzero : List.count (g, m, p)
          ((gids.dedup.filter (fun q => q ∈ e.2)).map (fun q => (g, e.1, q))) = 0 := by
        rw [List.count_eq_zero]
        intro hmem'
        obtain ⟨q, -, heq'⟩ := List.mem_map.mp hmem'
        simp only [Prod.mk.injEq] at heq'
        exact hme heq'.2.1.symm
      rw [hzero, ih hm.2 hrest]
      omega

theorem find_overlap_cons (mets : Dict String (List String))
    (e : String × List String) (rest : Dict String (List String)) :
    find_overlap mets (e :: rest) =
      overlapRowsFor e.1 e.2 mets ++ find_overlap mets rest := by
  simp [find_overlap_eq]

theorem count_find_overlap_not_key (mets gos : Dict String (List String))
    (g m p : String) (hg : g ∉ gos.map Prod.fst) :
    List.count (g, m, p) (find_overlap mets gos) = 0 := by
  rw [List.count_eq_zero]
  intro hmem
  obtain ⟨gids, hgg, -⟩ := mem_find_overlap.mp hmem
  exact hg (List.mem_map.mpr ⟨(g, gids), hgg, rfl⟩)

theorem count_find_overlap (mets gos : Dict String (List String))
    (hgn : (gos.map Prod.fst).Nodup) (g : String) (gids : List String)
    (hgg : (g, gids) ∈ gos) (m p : String) :
    List.count (g, m, p) (find_overlap mets gos) =
      List.count (g, m, p) (overlapRowsFor g gids mets) := by
  induction gos with
  | nil => simp at hgg
  | cons e rest ih =>
    rw [find_overlap_cons, List.count_append]
    rw [List.map_cons, List.nodup_cons] at hgn
    rcases List.mem_cons.mp hgg with heq | hrest
    · have he : e = (g, gids) := heq.symm
      subst he
      rw [count_find_overlap_not_key mets rest g m p hgn.1]
      simp
    · have hge : g ≠ e.1 := by
        intro hcontra
        exact hgn.1 (hcontra ▸ List.mem_map.mpr ⟨(g, gids), hrest, rfl⟩)
      have hzero : List.count (g, m, p) (overlapRowsFor e.1 e.2 mets) = 0 := by
        rw [List.count_eq_zero]
        intro hmem'
        exact hge (mem_overlapRowsFor.mp hmem').1
      rw [hzero, ih hgn.2 hrest]
      omega

theorem nodup_keys_val_eq {α β : Type} [DecidableEq α] (l : Dict α β)
    (h : (l.map Prod.fst).Nodup) (k : α) (v v' : β)
    (h1 : (k, v) ∈ l) (h2 : (k, v') ∈ l) : v = v' := by
  induction l with
  | nil => simp at h1
  | cons e rest ih =>
    rw [List.map_cons, List.nodup_cons] at h
    rcases List.mem_cons.mp h1 with he1 | hr1 <;> rcases List.mem_cons.mp h2 with he2 | hr2
    · rw [← he2] at he1
      exact congrArg Prod.snd he1
    · have hke : k = e.1 := congrArg Prod.fst he1
      exact absurd (List.mem_map.mpr ⟨(k, v'), hr2, hke⟩) h.1
    · have hke : k = e.1 := congrArg Prod.fst he2
      exact absurd (List.mem_map.mpr ⟨(k, v), hr1, hke⟩) h.1
    · exact ih h.2 hr1 hr2

/-- C1: `find_overlap` emits exactly one row `(g, m, p)` for each pair of
entries `(g, ids_g)`, `(m, ids_m)` and each paper id `p` in the
intersection of `ids_g` and `ids_m`; no row exists for any `p` outside
such an intersection; consequently, for fixed `g`, every paper id emitted
with `g` lies in `g`'s input id collection. -/
theorem find_overlap_correct (mets gos : Dict String (List String))
    (hgn : (gos.map Prod.fst).Nodup) (hmn : (mets.map Prod.fst).Nodup) :
    (∀ g gids m mids p, (g, gids) ∈ gos → (m, mids) ∈ mets →
      List.count (g, m, p) (find_overlap mets gos) =
        if p ∈ gids ∧ p ∈ mids then 1 else 0) ∧
    (∀ g m p, (g, m, p) ∈ find_overlap mets gos →
      ∃ gids mids, (g, gids) ∈ gos ∧ (m, mids) ∈ mets ∧ p ∈ gids ∧ p ∈ mids) ∧
    (∀ g gids m p, (g, gids) ∈ gos → (g, m, p) ∈ find_overlap mets gos → p ∈ gids) := by
  refine ⟨?_, ?_, ?_⟩
  · intro g gids m mids p hgg hmm
    rw [count_find_overlap mets gos hgn g gids hgg m p,
      count_overlapRowsFor g gids mets hmn m mids hmm p]
  · intro g m p hmem
    obtain ⟨gids, hgg, mids, hmm, hpg, hpm⟩ := mem_find_overlap.mp hmem
    exact ⟨gids, mids, hgg, hmm, hpg, hpm⟩
  · intro g gids m p hgg hmem
    obtain ⟨gids', hgg', mids, hmm, hpg, hpm⟩ := mem_find_overlap.mp hmem
    rwa [nodup_keys_val_eq gos hgn g gids gids' hgg hgg']

/-- Witness for C1 at the spec's end-to-end scenario: GO mapping
`{"A": ["p1","p2"], "B": ["p3"]}`, metabolite mapping
`{"X": ["p1"], "Y": ["p2","p3"]}`; the row `(A, X, p1)` appears exactly
once, and `p5 ∉ ids(A) ∩ ids(X)` yields no row. -/
theorem find_overlap_correct_witness :
    List.count ("A", "X", "p1")
      (find_overlap [("X", ["p1"]), ("Y", ["p2", "p3"])]
        [("A", ["p1", "p2"]), ("B", ["p3"])]) = 1 ∧
    List.count ("A", "X", "p5")
      (find_overlap [("X", ["p1"]), ("Y", ["p2", "p3"])]
        [("A", ["p1", "p2"]), ("B", ["p3"])]) = 0 := by
  have h := find_overlap_correct [("X", ["p1"]), ("Y", ["p2", "p3"])]
    [("A", ["p1", "p2"]), ("B", ["p3"])] (by decide) (by decide)
  constructor
  · have h1 := h.1 "A" ["p1", "p2"] "X" ["p1"] "p1" (by decide) (by decide)
    simpa using h1
  · have h2 := h.1 "A" ["p1", "p2"] "X" ["p1"] "p5" (by decide) (by decide)
    simpa using h2

/-! ### `EBI` — QuickGO ontology client -/

/-- One element of the `results` array of a QuickGO term lookup
(the fields consumed by `get_go_names`). -/
structure NameRes where
  name : String
  id : String
  deriving DecidableEq

/-- `EBI.get_go_names(identifiers)`: the input is paged in batches of 50
(`self.n`), and each batch's results are merged into one dict
`total[r["name"]] = r["id"]`. -/
def get_go_names (identifiers : List String) (server : List String → List NameRes) :
    Dict String String :=
  (chunks50 identifiers).foldl
    (fun total batch => (server batch).foldl (fun t r => dinsert t r.name r.id) total)
    []

/-- One element of the `results` array of a descendants request. -/
structure DescRes where
  descendants : List String
  deriving DecidableEq

/-- `EBI.get_descendants(go_id)`: `gos = list(set(dic["descendants"])) + [go_id]`;
the `[0]` index on an empty `results` array raises, modelled as `none`. -/
def get_descendants (go_id : String) (server : String → List DescRes) :
    Option (List String) :=
  match server go_id with
  | [] => none
  | r :: _ => some (r.descendants.dedup ++ [go_id])

/-- One element of the `results` array of an ancestors request. -/
structure AncRes where
  id : String
  ancestors : List String
  deriving DecidableEq

/-- `id_names = {allowed[i]: names[i] for i in range(len(names))}`. -/
def make_id_names (allowed names : List String) : Dict String String :=
  dict_of_pairs (allowed.zip names)

/-- `names_id = {names[i]: allowed[i] for i in range(len(names))}`. -/
def make_names_id (allowed names : List String) : Dict String String :=
  dict_of_pairs (names.zip allowed)

/-- `to_search = [names_id[x] for x in set(to_search)]`; a GO name absent
from `names_id` raises `KeyError`. -/
def resolve_to_search (to_search : List String) (names_id : Dict String String) :
    Except Unit (List String) :=
  to_search.dedup.mapM (lookupE names_id)

/-- The inner loop of `get_ancestors` over one batch's results:
`key = id_names[r["id"]]`,
`total[key] = [id_names[a] for a in r["ancestors"] if a in allowed] + [key]`. -/
def ancLoop (id_names : Dict String String) (allowed : List String) :
    Dict String (List String) → List AncRes → Except Unit (Dict String (List String))
  | total, [] => .ok total
  | total, r :: rs => do
    let key ← lookupE id_names r.id
    let chain ← (r.ancestors.filter (fun a => a ∈ allowed)).mapM (lookupE id_names)
    ancLoop id_names allowed (dinsert total key (chain ++ [key])) rs

/-- The outer loop of `get_ancestors` over the batches of 50. -/
def ancBatches (id_names : Dict String String) (allowed : List String)
    (server : List String → List AncRes) :
    Dict String (List String) → List (List String) → Except Unit (Dict String (List String))
  | total, [] => .ok total
  | total, b :: bs => do
    let total' ← ancLoop id_names allowed total (server b)
    ancBatches id_names allowed server total' bs

/-- `EBI.get_ancestors(to_search, allowed, names)`.  The two dict
comprehensions index `allowed[i]` for `i in range(len(names))`, which
raises `IndexError` when `allowed` is shorter than `names`; that guard is
the outer `if`. -/
def get_ancestors (to_search allowed names : List String)
    (server : List String → List AncRes) : Except Unit (Dict String (List String)) :=
  if names.length ≤ allowed.length then do
    let ts ← resolve_to_search to_search (make_names_id allowed names)
    ancBatches (make_id_names allowed names) allowed server [] (chunks50 ts)
  else .error ()

/-- The arguments of the batched ancestors requests `get_ancestors` issues. -/
def ancestor_calls (to_search allowed names : List String) :
    Except Unit (List (List String)) :=
  if names.length ≤ allowed.length then do
    let ts ← resolve_to_search to_search (make_names_id allowed names)
    .ok (chunks50 ts)
  else .error ()

/-- Python `"\t".join(l)`, on the character sequences of the names:
the fragments' characters separated by single tab characters. -/
def tabJoin : List String → List Char
  | [] => []
  | [s] => s.data
  | s :: t :: rest => s.data ++ '\t' :: tabJoin (t :: rest)

/-- The accumulator loop of Python `s.split("\t")`: characters read so far
(in reverse) become a fragment at each tab and at the end of the string. -/
def tabSplitAux : List Char → List Char → List String
  | acc, [] => [String.mk acc.reverse]
  | acc, c :: cs =>
    if c = '\t' then String.mk acc.reverse :: tabSplitAux [] cs
    else tabSplitAux (c :: acc) cs

/-- Python `s.split("\t")` on the character sequence of `s`
(`"".split("\t") == [""]`, as in Python). -/
def tabSplit (cs : List Char) : List String := tabSplitAux [] cs

/-- `get_expanded_df(ebi, df, options)`: look up the ancestor chain of each
row's GO term (`ancestors[go]`, `KeyError` when absent), store it
tab-joined in the `Ancestors` column (`"\t".join(ancestors[go])`), then
split that column on tabs and explode it into one row
`(ancestor, metabolite, paper)` per fragment
(`df.assign(Ancestors = df.Ancestors.str.split("\t")).explode("Ancestors")`). -/
def get_expanded_df (rows : List (String × String × String)) (gos names : List String)
    (server : List String → List AncRes) :
    Except Unit (List (String × String × String)) := do
  let ancestors ← get_ancestors (rows.map (fun r => r.1)) gos names server
  let tagged ← rows.mapM (fun r => do
    let chain ← lookupE ancestors r.1
    pure (String.mk (tabJoin chain), r))
  .ok (tagged.flatMap (fun cr => (tabSplit cr.1.data).map (fun a => (a, cr.2.2.1, cr.2.2.2))))

/-! ### `get_descendants` (claim C9) -/

/-- C9 (amended): `get_descendants` returns the deduplicated descendant
list with the queried id appended unconditionally: every id other than
the queried one occurs at most once, but the queried id occurs twice
whenever the service already lists it among the descendants (and once
otherwise). -/
theorem get_descendants_spec (go_id : String) (server : String → List DescRes)
    (r : DescRes) (rest : List DescRes) (h : server go_id = r :: rest) :
    get_descendants go_id server = some (r.descendants.dedup ++ [go_id]) ∧
    (∀ x, x ∈ r.descendants.dedup ++ [go_id] ↔ (x ∈ r.descendants ∨ x = go_id)) ∧
    (∀ x, x ≠ go_id → List.count x (r.descendants.dedup ++ [go_id]) ≤ 1) ∧
    (go_id ∈ r.descendants → List.count go_id (r.descendants.dedup ++ [go_id]) = 2) ∧
    (go_id ∉ r.descendants → List.count go_id (r.descendants.dedup ++ [go_id]) = 1) := by
  refine ⟨by rw [get_descendants, h], ?_, ?_, ?_, ?_⟩
  · intro x
    simp [List.mem_dedup]
  · intro x hx
    rw [List.count_append]
    have h1 : List.count x r.descendants.dedup ≤ 1 :=
      List.nodup_iff_count_le_one.mp (List.nodup_dedup _) x
    have h2 : List.count x [go_id] = 0 := by
      rw [List.count_eq_zero]
      simpa using hx
    omega
  · intro hmem
    rw [List.count_append]
    have h1 : List.count go_id r.descendants.dedup = 1 :=
      List.count_eq_one_of_mem (List.nodup_dedup _) (List.mem_dedup.mpr hmem)
    have h2 : List.count go_id [go_id] = 1 := by simp
    omega
  · intro hmem
    rw [List.count_append]
    have h1 : List.count go_id r.descendants.dedup = 0 := by
      rw [List.count_eq_zero]
      simpa [List.mem_dedup] using hmem
    have h2 : List.count go_id [go_id] = 1 := by simp
    omega

/-- Witness for the amended C9 statement at a concrete service response. -/
theorem get_descendants_spec_witness :
    get_descendants "GO:2" (fun _ => [⟨["GO:1"]⟩]) =
      some ((["GO:1"] : List String).dedup ++ ["GO:2"]) ∧
    List.count "GO:2" ((["GO:1"] : List String).dedup ++ ["GO:2"]) = 1 := by
  have h := get_descendants_spec "GO:2" (fun _ => [⟨["GO:1"]⟩]) ⟨["GO:1"]⟩ [] rfl
  exact ⟨h.1, h.2.2.2.2 (by decide)⟩

/-- Counterexample to C9 as stated: when the service already lists the
queried id among its descendants, the returned collection contains the
queried id twice, not at most once. -/
theorem get_descendants_dup_counterexample :
    get_descendants "GO:1" (fun _ => [⟨["GO:1"]⟩]) = some ["GO:1", "GO:1"] ∧
    List.count "GO:1" ["GO:1", "GO:1"] = 2 := by
  exact ⟨rfl, by decide⟩

/-! ### `get_go_names` batching (claim C8) -/

theorem chunks50_of_ne_nil {α : Type} (l : List α) (h : l ≠ []) :
    chunks50 l = (l.take 50) :: chunks50 (l.drop 50) := by
  cases l with
  | nil => exact absurd rfl h
  | cons a t => exact chunks50_cons a t

theorem dinsert_append_of_not_mem {α β : Type} [DecidableEq α] (d : Dict α β)
    (k : α) (v : β) (h : k ∉ d.map Prod.fst) : dinsert d k v = d ++ [(k, v)] := by
  induction d with
  | nil => simp [dinsert]
  | cons e rest ih =>
    obtain ⟨a, b⟩ := e
    simp only [List.map_cons, List.mem_cons] at h
    push_neg at h
    have hak : ¬ a = k := fun hh => h.1 hh.symm
    simp only [dinsert, if_neg hak]
    rw [ih h.2, List.cons_append]

theorem foldl_dinsert_fresh (rs : List NameRes) :
    ∀ d : Dict String String,
      (rs.map NameRes.name).Nodup →
      (∀ r ∈ rs, r.name ∉ d.map Prod.fst) →
      rs.foldl (fun t r => dinsert t r.name r.id) d =
        d ++ rs.map (fun r => (r.name, r.id)) := by
  induction rs with
  | nil => intro d _ _; simp
  | cons r rest ih =>
    intro d hnodup hfresh
    rw [List.map_cons, List.nodup_cons] at hnodup
    rw [List.foldl_cons,
      dinsert_append_of_not_mem d r.name r.id (hfresh r (List.mem_cons_self _ _)),
      ih (d ++ [(r.name, r.id)]) hnodup.2 ?_, List.map_cons, List.append_assoc,
      List.singleton_append]
    intro r' hr'
    rw [List.map_append, List.mem_append]
    rintro (hin | hin)
    · exact hfresh r' (List.mem_cons_of_mem _ hr') hin
    · simp only [List.map_cons, List.map_nil, List.mem_singleton] at hin
      exact hnodup.1 (hin ▸ List.mem_map.mpr ⟨r', hr', rfl⟩)

theorem go_names_fold_batches (server : List String → List NameRes)
    (bs : List (List String)) :
    ∀ d : Dict String String,
      ((bs.flatMap server).map NameRes.name).Nodup →
      (∀ r ∈ bs.flatMap server, r.name ∉ d.map Prod.fst) →
      bs.foldl
        (fun total batch => (server batch).foldl (fun t r => dinsert t r.name r.id) total)
        d = d ++ (bs.flatMap server).map (fun r => (r.name, r.id)) := by
  induction bs with
  | nil => intro d _ _; simp
  | cons b rest ih =>
    intro d hnodup hfresh
    simp only [List.flatMap_cons, List.map_append] at hnodup
    rw [List.nodup_append] at hnodup
    obtain ⟨hn1, hn2, hdisj⟩ := hnodup
    have fresh1 : ∀ r ∈ server b, r.name ∉ List.map Prod.fst d := by
      intro r hr
      exact hfresh r (by rw [List.flatMap_cons, List.mem_append]; left; exact hr)
    have fresh2 : ∀ r ∈ rest.flatMap server,
        r.name ∉ List.map Prod.fst (d ++ (server b).map (fun r => (r.name, r.id))) := by
      intro r hr
      rw [List.map_append, List.mem_append]
      rintro (hin | hin)
      · exact hfresh r (by rw [List.flatMap_cons, List.mem_append]; right; exact hr) hin
      · rw [List.map_map] at hin
        exact hdisj (by simpa [Function.comp] using hin) (List.mem_map.mpr ⟨r, hr, rfl⟩)
    rw [List.foldl_cons, foldl_dinsert_fresh (server b) d hn1 fresh1, ih _ hn2 fresh2,
      List.flatMap_cons, List.map_append, List.append_assoc]

/-- C8: on a 120-id input `get_go_names` issues exactly 3 batched remote
calls of sizes 50, 50 and 20 that together cover the input in order, and
(when the returned names do not collide) the per-batch results are merged
into the single combined name-to-id mapping listing every returned pair. -/
theorem get_go_names_batching (identifiers : List String)
    (h : identifiers.length = 120) :
    (chunks50 identifiers).map List.length = [50, 50, 20] ∧
    (chunks50 identifiers).flatten = identifiers ∧
    ∀ server : List String → List NameRes,
      (((chunks50 identifiers).flatMap server).map NameRes.name).Nodup →
      get_go_names identifiers server =
        ((chunks50 identifiers).flatMap server).map (fun r => (r.name, r.id)) := by
  have h0 : identifiers ≠ [] := by
    intro hh; rw [hh] at h; simp at h
  have e1 := chunks50_of_ne_nil identifiers h0
  have h1 : (identifiers.drop 50).length = 70 := by
    rw [List.length_drop, h]
  have h1n : identifiers.drop 50 ≠ [] := by
    intro hh; rw [hh] at h1; simp at h1
  have e2 := chunks50_of_ne_nil (identifiers.drop 50) h1n
  have h2 : ((identifiers.drop 50).drop 50).length = 20 := by
    rw [List.length_drop, h1]
  have h2n : (identifiers.drop 50).drop 50 ≠ [] := by
    intro hh; rw [hh] at h2; simp at h2
  have e3 := chunks50_of_ne_nil ((identifiers.drop 50).drop 50) h2n
  have h3 : (((identifiers.drop 50).drop 50).drop 50).length = 0 := by
    rw [List.length_drop, h2]
  have h3e : ((identifiers.drop 50).drop 50).drop 50 = [] :=
    List.eq_nil_of_length_eq_zero h3
  refine ⟨?_, chunks50_flatten identifiers, ?_⟩
  · rw [e1, e2, e3, h3e, chunks50_nil]
    simp only [List.map_cons, List.map_nil, List.length_take, h, h1, h2]
    decide
  · intro server hnodup
    rw [get_go_names, go_names_fold_batches server (chunks50 identifiers) [] hnodup
      (by intro r _; simp), List.nil_append]

theorem flatMap_nil_fun {α β : Type} (l : List α) :
    l.flatMap (fun _ => ([] : List β)) = [] := by
  induction l with
  | nil => rfl
  | cons a t ih => simp [ih]

/-- Witness for C8 on a concrete 120-id input. -/
theorem get_go_names_batching_witness :
    (chunks50 (List.replicate 120 "x")).map List.length = [50, 50, 20] ∧
    (chunks50 (List.replicate 120 "x")).flatten = List.replicate 120 "x" ∧
    get_go_names (List.replicate 120 "x") (fun _ => []) =
      ((chunks50 (List.replicate 120 "x")).flatMap
        (fun _ => ([] : List NameRes))).map (fun r => (r.name, r.id)) := by
  have h := get_go_names_batching (List.replicate 120 "x") (by simp)
  exact ⟨h.1, h.2.1, h.2.2 (fun _ => ([] : List NameRes)) (by simp [flatMap_nil_fun])⟩

/-! ### Except/mapM helpers for the `get_ancestors` proofs -/

theorem ebind_ok {α β : Type} (a : α) (g : α → Except Unit β) :
    (Except.ok a >>= g) = g a := rfl

theorem ebind_error {β γ : Type} (g : β → Except Unit γ) :
    ((Except.error () : Except Unit β) >>= g) = .error () := rfl

theorem epure_eq {α : Type} (a : α) : (pure a : Except Unit α) = .ok a := rfl

theorem except_bind_ok {α β : Type} (x : Except Unit α) (g : α → Except Unit β) (b : β)
    (h : x >>= g = .ok b) : ∃ a, x = .ok a ∧ g a = .ok b := by
  cases x with
  | error e => simp [Bind.bind, Except.bind] at h
  | ok a => exact ⟨a, rfl, by simpa [Bind.bind, Except.bind] using h⟩

theorem mapM_error_of_mem {α β : Type} (f : α → Except Unit β) (l : List α)
    (x : α) (hx : x ∈ l) (hf : f x = .error ()) : l.mapM f = .error () := by
  induction l with
  | nil => simp at hx
  | cons a t ih =>
    rw [List.mapM_cons]
    rcases List.mem_cons.mp hx with h | h
    · subst h; rw [hf]; rfl
    · cases hfa : f a with
      | error e => cases e; rfl
      | ok b => rw [ih h]; rfl

theorem mapM_ok_of_forall {α β : Type} (f : α → Except Unit β) (l : List α)
    (h : ∀ x ∈ l, ∃ y, f x = .ok y) : ∃ out, l.mapM f = .ok out := by
  induction l with
  | nil => exact ⟨[], by rw [List.mapM_nil, epure_eq]⟩
  | cons a t ih =>
    obtain ⟨y, hy⟩ := h a (List.mem_cons_self _ _)
    obtain ⟨out, hout⟩ := ih (fun x hx => h x (List.mem_cons_of_mem _ hx))
    exact ⟨y :: out, by rw [List.mapM_cons, hy, ebind_ok, hout, ebind_ok, epure_eq]⟩

theorem mapM_ok_mem {α β : Type} (f : α → Except Unit β) :
    ∀ (l : List α) (out : List β), l.mapM f = .ok out →
      ∀ y ∈ out, ∃ x ∈ l, f x = .ok y := by
  intro l
  induction l with
  | nil =>
    intro out h y hy
    rw [List.mapM_nil] at h
    have h' : ([] : List β) = out := by simpa [pure, Except.pure] using h
    subst h'
    simp at hy
  | cons a t ih =>
    intro out h y hy
    rw [List.mapM_cons] at h
    cases hfa : f a with
    | error e =>
      cases e; rw [hfa, ebind_error] at h
      exact absurd h (by simp)
    | ok b =>
      rw [hfa, ebind_ok] at h
      cases hmt : t.mapM f with
      | error e =>
        cases e; rw [hmt, ebind_error] at h
        exact absurd h (by simp)
      | ok bs =>
        rw [hmt, ebind_ok, epure_eq] at h
        have hb : b :: bs = out := by simpa using h
        subst hb
        rcases List.mem_cons.mp hy with hyy | hyy
        · exact ⟨a, List.mem_cons_self _ _, hyy ▸ hfa⟩
        · obtain ⟨x, hx, hfx⟩ := ih bs hmt y hyy
          exact ⟨x, List.mem_cons_of_mem _ hx, hfx⟩

theorem dget_none_iff {α β : Type} [DecidableEq α] (d : Dict α β) (k : α) :
    dget d k = none ↔ k ∉ d.map Prod.fst := by
  induction d with
  | nil => simp [dget]
  | cons e rest ih =>
    obtain ⟨a, b⟩ := e
    by_cases hak : a = k
    · subst hak
      simp [dget]
    · simp only [dget, if_neg hak, List.map_cons, List.mem_cons, ih]
      constructor
      · rintro hnk (hk | hk)
        · exact hak hk.symm
        · exact hnk hk
      · intro hnk hk
        exact hnk (Or.inr hk)

theorem mem_keys_dinsert {α β : Type} [DecidableEq α] (d : Dict α β) (k : α) (v : β)
    (x : α) : x ∈ (dinsert d k v).map Prod.fst ↔ x ∈ d.map Prod.fst ∨ x = k := by
  rw [dinsert_keys]
  by_cases hk : k ∈ d.map Prod.fst
  · rw [if_pos hk]
    constructor
    · exact Or.inl
    · rintro (h | h)
      · exact h
      · exact h ▸ hk
  · rw [if_neg hk, List.mem_append, List.mem_singleton]

theorem mem_keys_dict_of_pairs {α β : Type} [DecidableEq α] (pairs : List (α × β))
    (x : α) : x ∈ (dict_of_pairs pairs).map Prod.fst ↔ x ∈ pairs.map Prod.fst := by
  suffices H : ∀ d : Dict α β,
      (x ∈ (pairs.foldl (fun d kv => dinsert d kv.1 kv.2) d).map Prod.fst ↔
        x ∈ d.map Prod.fst ∨ x ∈ pairs.map Prod.fst) by
    have := H []
    simpa [dict_of_pairs] using this
  induction pairs with
  | nil => intro d; simp
  | cons e rest ih =>
    intro d
    rw [List.foldl_cons, ih (dinsert d e.1 e.2), mem_keys_dinsert, List.map_cons,
      List.mem_cons]
    tauto

/-! ### `get_ancestors` error behaviour (claim C7) -/

/-- C7: if some GO name in `to_search` is absent from the catalogue's name
list, `get_ancestors` fails at the `names_id` lookup (for every server)
rather than returning a result; if every name is present, that
names-to-ids resolution succeeds. -/
theorem get_ancestors_missing_name (to_search allowed names : List String)
    (hlen : names.length ≤ allowed.length) :
    ((∃ x ∈ to_search, x ∉ names) →
      resolve_to_search to_search (make_names_id allowed names) = .error () ∧
      ∀ server, get_ancestors to_search allowed names server = .error ()) ∧
    ((∀ x ∈ to_search, x ∈ names) →
      ∃ ts, resolve_to_search to_search (make_names_id allowed names) = .ok ts) := by
  have hkeys : ∀ x, x ∈ (make_names_id allowed names).map Prod.fst ↔ x ∈ names := by
    intro x
    rw [make_names_id, mem_keys_dict_of_pairs, List.map_fst_zip names allowed hlen]
  constructor
  · rintro ⟨x, hx, hxn⟩
    have herr : lookupE (make_names_id allowed names) x = .error () := by
      cases hd : dget (make_names_id allowed names) x with
      | none => simp [lookupE, hd]
      | some v =>
        exfalso
        exact hxn ((hkeys x).mp (List.mem_map.mpr ⟨(x, v), dget_mem _ _ _ hd, rfl⟩))
    have hres : resolve_to_search to_search (make_names_id allowed names) = .error () :=
      mapM_error_of_mem _ _ x (List.mem_dedup.mpr hx) herr
    refine ⟨hres, ?_⟩
    intro server
    simp only [get_ancestors, if_pos hlen]
    rw [hres, ebind_error]
  · intro hall
    apply mapM_ok_of_forall
    intro x hx
    have hxn : x ∈ names := hall x (List.mem_dedup.mp hx)
    cases hd : dget (make_names_id allowed names) x with
    | none => exact absurd ((hkeys x).mpr hxn) ((dget_none_iff _ _).mp hd)
    | some v => exact ⟨v, by simp [lookupE, hd]⟩

/-- Witness for C7: name "b" is missing from the catalogue `(GO:1 ↦ a)`,
so the call fails; with input "a" the resolution succeeds. -/
theorem get_ancestors_missing_name_witness :
    (resolve_to_search ["b"] (make_names_id ["GO:1"] ["a"]) = .error () ∧
      get_ancestors ["b"] ["GO:1"] ["a"] (fun _ => []) = .error ()) ∧
    ∃ ts, resolve_to_search ["a"] (make_names_id ["GO:1"] ["a"]) = .ok ts := by
  have h1 := (get_ancestors_missing_name ["b"] ["GO:1"] ["a"] (by decide)).1
    ⟨"b", by decide, by decide⟩
  have h2 := (get_ancestors_missing_name ["a"] ["GO:1"] ["a"] (by decide)).2
    (by intro x hx; simpa using hx)
  exact ⟨⟨h1.1, h1.2 (fun _ => [])⟩, h2⟩

/-! ### `get_ancestors` duplicate-insensitivity (claim C10) -/

theorem ancLoop_nodup_keys (id_names : Dict String String) (allowed : List String) :
    ∀ (rs : List AncRes) (total total' : Dict String (List String)),
      (total.map Prod.fst).Nodup →
      ancLoop id_names allowed total rs = .ok total' →
      (total'.map Prod.fst).Nodup := by
  intro rs
  induction rs with
  | nil =>
    intro total total' hn h
    simp only [ancLoop] at h
    have : total = total' := by simpa using h
    exact this ▸ hn
  | cons r rest ih =>
    intro total total' hn h
    simp only [ancLoop] at h
    cases hk : lookupE id_names r.id with
    | error e =>
      cases e
      rw [hk, ebind_error] at h
      exact absurd h (by simp)
    | ok key =>
      rw [hk, ebind_ok] at h
      cases hc : (r.ancestors.filter (fun a => a ∈ allowed)).mapM (lookupE id_names) with
      | error e =>
        cases e
        rw [hc, ebind_error] at h
        exact absurd h (by simp)
      | ok chain =>
        rw [hc, ebind_ok] at h
        exact ih _ _ (dinsert_nodup_keys _ _ _ hn) h

theorem ancBatches_nodup_keys (id_names : Dict String String) (allowed : List String)
    (server : List String → List AncRes) :
    ∀ (bs : List (List String)) (total total' : Dict String (List String)),
      (total.map Prod.fst).Nodup →
      ancBatches id_names allowed server total bs = .ok total' →
      (total'.map Prod.fst).Nodup := by
  intro bs
  induction bs with
  | nil =>
    intro total total' hn h
    simp only [ancBatches] at h
    have : total = total' := by simpa using h
    exact this ▸ hn
  | cons b rest ih =>
    intro total total' hn h
    simp only [ancBatches] at h
    cases hl : ancLoop id_names allowed total (server b) with
    | error e =>
      cases e
      rw [hl, ebind_error] at h
      exact absurd h (by simp)
    | ok mid =>
      rw [hl, ebind_ok] at h
      exact ih _ _ (ancLoop_nodup_keys id_names allowed (server b) total mid hn hl) h

/-- A concrete ancestors service that echoes each queried id with no
reported ancestors. -/
def reflAncServer : List String → List AncRes := fun b => b.map (fun i => ⟨i, []⟩)

/-- C10: `get_ancestors` only consumes `set(to_search)`, so its result and
its batched remote calls on any input list equal those on the
deduplicated list, and the returned mapping has at most one entry per
distinct input name (its keys are distinct). -/
theorem get_ancestors_dedup_insensitive (to_search allowed names : List String)
    (server : List String → List AncRes) :
    get_ancestors to_search allowed names server =
      get_ancestors to_search.dedup allowed names server ∧
    ancestor_calls to_search allowed names =
      ancestor_calls to_search.dedup allowed names ∧
    (∀ total, get_ancestors to_search allowed names server = .ok total →
      (total.map Prod.fst).Nodup) := by
  refine ⟨?_, ?_, ?_⟩
  · simp only [get_ancestors, resolve_to_search, List.dedup_idem]
  · simp only [ancestor_calls, resolve_to_search, List.dedup_idem]
  · intro total h
    by_cases hlen : names.length ≤ allowed.length
    · simp only [get_ancestors, if_pos hlen] at h
      obtain ⟨ts, hts, hbatch⟩ := except_bind_ok _ _ _ h
      exact ancBatches_nodup_keys _ _ _ _ _ _ (by simp) hbatch
    · simp only [get_ancestors, if_neg hlen] at h
      exact absurd h (by simp)

/-- Witness for C10 on a duplicated input list. -/
theorem get_ancestors_dedup_insensitive_witness :
    get_ancestors ["a", "a"] ["GO:1"] ["a"] reflAncServer =
      get_ancestors (["a", "a"] : List String).dedup ["GO:1"] ["a"] reflAncServer ∧
    ((([("a", ["a"])] : Dict String (List String)).map Prod.fst).Nodup) :=
  ⟨(get_ancestors_dedup_insensitive ["a", "a"] ["GO:1"] ["a"] reflAncServer).1,
   (get_ancestors_dedup_insensitive ["a", "a"] ["GO:1"] ["a"] reflAncServer).2.2
     [("a", ["a"])] rfl⟩

/-! ### `get_ancestors` entry invariant (claims C3, C6) -/

theorem ancLoop_entries (id_names : Dict String String) (allowed : List String) :
    ∀ (rs : List AncRes) (total total' : Dict String (List String)),
      ancLoop id_names allowed total rs = .ok total' →
      ∀ p ∈ total', p ∈ total ∨
        ((∃ c', p.2 = c' ++ [p.1]) ∧ ∀ x ∈ p.2, ∃ a, (a, x) ∈ id_names) := by
  intro rs
  induction rs with
  | nil =>
    intro total total' h p hp
    simp only [ancLoop] at h
    have heq : total = total' := by simpa using h
    left
    exact heq ▸ hp
  | cons r rest ih =>
    intro total total' h p hp
    simp only [ancLoop] at h
    cases hk : lookupE id_names r.id with
    | error e =>
      cases e
      rw [hk, ebind_error] at h
      exact absurd h (by simp)
    | ok key =>
      rw [hk, ebind_ok] at h
      cases hc : (r.ancestors.filter (fun a => a ∈ allowed)).mapM (lookupE id_names) with
      | error e =>
        cases e
        rw [hc, ebind_error] at h
        exact absurd h (by simp)
      | ok chain =>
        rw [hc, ebind_ok] at h
        rcases ih _ _ h p hp with hin | hgood
        · rcases mem_dinsert _ _ _ _ hin with hin' | heq
          · left
            exact hin'
          · right
            subst heq
            refine ⟨⟨chain, rfl⟩, ?_⟩
            intro x hx
            rcases List.mem_append.mp hx with hxc | hxk
            · obtain ⟨a', ha', hla'⟩ := mapM_ok_mem _ _ _ hc x hxc
              exact ⟨a', lookupE_mem _ _ _ hla'⟩
            · rw [List.mem_singleton] at hxk
              subst hxk
              exact ⟨r.id, lookupE_mem _ _ _ hk⟩
        · right
          exact hgood

theorem ancBatches_entries (id_names : Dict String String) (allowed : List String)
    (server : List String → List AncRes) :
    ∀ (bs : List (List String)) (total total' : Dict String (List String)),
      ancBatches id_names allowed server total bs = .ok total' →
      ∀ p ∈ total', p ∈ total ∨
        ((∃ c', p.2 = c' ++ [p.1]) ∧ ∀ x ∈ p.2, ∃ a, (a, x) ∈ id_names) := by
  intro bs
  induction bs with
  | nil =>
    intro total total' h p hp
    simp only [ancBatches] at h
    have heq : total = total' := by simpa using h
    left
    exact heq ▸ hp
  | cons b rest ih =>
    intro total total' h p hp
    simp only [ancBatches] at h
    cases hl : ancLoop id_names allowed total (server b) with
    | error e =>
      cases e
      rw [hl, ebind_error] at h
      exact absurd h (by simp)
    | ok mid =>
      rw [hl, ebind_ok] at h
      rcases ih _ _ h p hp with hin | hgood
      · exact ancLoop_entries id_names allowed (server b) total mid hl p hin
      · right
        exact hgood

theorem get_ancestors_entries (to_search allowed names : List String)
    (server : List String → List AncRes) (total : Dict String (List String))
    (h : get_ancestors to_search allowed names server = .ok total) :
    ∀ p ∈ total, (∃ c', p.2 = c' ++ [p.1]) ∧
      ∀ x ∈ p.2, ∃ a, (a, x) ∈ make_id_names allowed names := by
  by_cases hlen : names.length ≤ allowed.length
  · simp only [get_ancestors, if_pos hlen] at h
    obtain ⟨ts, -, hbatch⟩ := except_bind_ok _ _ _ h
    intro p hp
    rcases ancBatches_entries _ _ _ _ _ _ hbatch p hp with hin | hgood
    · simp at hin
    · exact hgood
  · simp only [get_ancestors, if_neg hlen] at h
    exact absurd h (by simp)

/-- C3: whenever `get_ancestors` succeeds, every name in every returned
ancestor chain (the input term itself included) is the catalogue name of
an id in the allowed list — no out-of-catalogue id ever reaches the
output, whatever the remote service returned. -/
theorem get_ancestors_allowed_only (to_search allowed names : List String)
    (server : List String → List AncRes) (total : Dict String (List String))
    (h : get_ancestors to_search allowed names server = .ok total) :
    ∀ key chain, (key, chain) ∈ total →
      ∀ x ∈ chain, x ∈ names ∧ ∃ a ∈ allowed, (a, x) ∈ allowed.zip names := by
  intro key chain hkc x hx
  obtain ⟨-, hall⟩ := get_ancestors_entries to_search allowed names server total h
    (key, chain) hkc
  obtain ⟨a, ha⟩ := hall x hx
  have hzip : (a, x) ∈ allowed.zip names := mem_dict_of_pairs _ _ ha
  have := List.of_mem_zip hzip
  exact ⟨this.2, a, this.1, hzip⟩

/-- Witness for C3 at a concrete catalogue and service response. -/
theorem get_ancestors_allowed_only_witness :
    ("a" : String) ∈ (["a"] : List String) ∧
      ∃ a ∈ (["GO:1"] : List String), (a, "a") ∈ (["GO:1"] : List String).zip ["a"] :=
  get_ancestors_allowed_only ["a", "a"] ["GO:1"] ["a"] reflAncServer
    [("a", ["a"])] rfl "a" ["a"] (by decide) "a" (by decide)


/-! ### `get_expanded_df` (claim C6) -/

theorem tabSplitAux_no_tab (s : List Char) (hs : '\t' ∉ s) :
    ∀ acc : List Char, tabSplitAux acc s = [String.mk (acc.reverse ++ s)] := by
  induction s with
  | nil => intro acc; simp [tabSplitAux]
  | cons c cs ih =>
    intro acc
    have hc : ¬ c = '\t' := fun hh => hs (hh ▸ List.mem_cons_self _ _)
    simp only [tabSplitAux, if_neg hc]
    rw [ih (fun hmem => hs (List.mem_cons_of_mem _ hmem)) (c :: acc)]
    simp [List.reverse_cons, List.append_assoc]

theorem tabSplitAux_tab (s : List Char) (hs : '\t' ∉ s) :
    ∀ (rest acc : List Char),
      tabSplitAux acc (s ++ '\t' :: rest) =
        String.mk (acc.reverse ++ s) :: tabSplitAux [] rest := by
  induction s with
  | nil => intro rest acc; simp [tabSplitAux]
  | cons c cs ih =>
    intro rest acc
    have hc : ¬ c = '\t' := fun hh => hs (hh ▸ List.mem_cons_self _ _)
    simp only [List.cons_append, tabSplitAux, if_neg hc, List.append_eq]
    rw [ih (fun hmem => hs (List.mem_cons_of_mem _ hmem)) rest (c :: acc)]
    simp [List.reverse_cons, List.append_assoc]

/-- Splitting the tab-join undoes the join exactly when no fragment
contains the tab delimiter. -/
theorem tabSplit_tabJoin :
    ∀ chain : List String, chain ≠ [] → (∀ s ∈ chain, '\t' ∉ s.data) →
      tabSplit (tabJoin chain) = chain := by
  intro chain
  induction chain with
  | nil => intro hne _; exact absurd rfl hne
  | cons s rest ih =>
    intro _ hfree
    cases rest with
    | nil =>
      show tabSplitAux [] (tabJoin [s]) = [s]
      rw [show tabJoin [s] = s.data from rfl,
        tabSplitAux_no_tab s.data (hfree s (List.mem_cons_self _ _)) []]
      rfl
    | cons t rest' =>
      show tabSplitAux [] (tabJoin (s :: t :: rest')) = s :: t :: rest'
      rw [show tabJoin (s :: t :: rest') = s.data ++ '\t' :: tabJoin (t :: rest') from rfl,
        tabSplitAux_tab s.data (hfree s (List.mem_cons_self _ _)) (tabJoin (t :: rest')) []]
      have hs : String.mk (([] : List Char).reverse ++ s.data) = s := rfl
      rw [hs]
      congr 1
      exact ih (by simp) (fun x hx => hfree x (List.mem_cons_of_mem _ hx))

theorem expand_tagged_mem (ancd : Dict String (List String)) :
    ∀ (rows : List (String × String × String))
      (tagged : List (String × (String × String × String))),
      rows.mapM (fun r => do
        let chain ← lookupE ancd r.1
        pure (String.mk (tabJoin chain), r)) = .ok tagged →
      ∀ r ∈ rows, ∀ chain, dget ancd r.1 = some chain →
        (String.mk (tabJoin chain), r) ∈ tagged := by
  intro rows
  induction rows with
  | nil =>
    intro tagged h r hr
    simp at hr
  | cons a t ih =>
    intro tagged h r hr chain hchain
    rw [List.mapM_cons] at h
    cases hla : lookupE ancd a.1 with
    | error e =>
      cases e
      rw [hla] at h
      exact absurd h (by simp [Bind.bind, Except.bind])
    | ok c =>
      have hfa : (do
          let chain ← lookupE ancd a.1
          pure (String.mk (tabJoin chain), a) :
            Except Unit (String × (String × String × String))) =
            .ok (String.mk (tabJoin c), a) := by
        rw [hla, ebind_ok, epure_eq]
      rw [hfa, ebind_ok] at h
      cases hmt : t.mapM (fun r => do
          let chain ← lookupE ancd r.1
          pure (String.mk (tabJoin chain), r)) with
      | error e =>
        cases e
        rw [hmt, ebind_error] at h
        exact absurd h (by simp)
      | ok rest' =>
        rw [hmt, ebind_ok, epure_eq] at h
        have htag : (String.mk (tabJoin c), a) :: rest' = tagged := by simpa using h
        subst htag
        rcases List.mem_cons.mp hr with hra | hrt
        · subst hra
          have hc : c = chain := by
            have hch : lookupE ancd r.1 = .ok c := hla
            rw [lookupE, hchain] at hch
            have : chain = c := by simpa using hch
            exact this.symm
          subst hc
          exact List.mem_cons_self _ _
        · exact List.mem_cons_of_mem _ (ih rest' hmt r hrt chain hchain)

theorem expand_tagged_sound (ancd : Dict String (List String))
    (rows : List (String × String × String))
    (tagged : List (String × (String × String × String)))
    (h : rows.mapM (fun r => do
      let chain ← lookupE ancd r.1
      pure (String.mk (tabJoin chain), r)) = .ok tagged) :
    ∀ cr ∈ tagged, cr.2 ∈ rows ∧ ∃ chain, lookupE ancd cr.2.1 = .ok chain ∧
      cr.1 = String.mk (tabJoin chain) := by
  intro cr hcr
  obtain ⟨x, hx, hfx⟩ := mapM_ok_mem _ _ _ h cr hcr
  cases hlx : lookupE ancd x.1 with
  | error e =>
    cases e
    rw [hlx, ebind_error] at hfx
    exact absurd hfx (by simp)
  | ok c =>
    rw [hlx, ebind_ok, epure_eq] at hfx
    have hcx : (String.mk (tabJoin c), x) = cr := by simpa using hfx
    subst hcx
    exact ⟨hx, c, hlx, rfl⟩

/-- C6 (amended): provided no catalogue name contains a tab character
(the delimiter of the internal `"\t".join` / `.str.split("\t")` round
trip), whenever the expansion succeeds each direct association row
`(g, m, p)` is itself in the expanded table (the recorded chain for `g`
ends with `g`), and for every name `a` in the chain recorded for `g` —
all of which are catalogue names of allowed ancestors of `g`, plus `g`
itself — the fanned-out row `(a, m, p)` is in the expanded table;
conversely every expanded row arises that way.  Under that proviso the
expanded associations are a superset of the direct ones, and nothing
more. -/
theorem get_expanded_df_superset (rows : List (String × String × String))
    (gos names : List String) (server : List String → List AncRes)
    (ancd : Dict String (List String)) (expanded : List (String × String × String))
    (hfree : ∀ x ∈ names, '\t' ∉ x.data)
    (hanc : get_ancestors (rows.map (fun r => r.1)) gos names server = .ok ancd)
    (hexp : get_expanded_df rows gos names server = .ok expanded) :
    (∀ r ∈ rows, ∀ chain, dget ancd r.1 = some chain →
      r ∈ expanded ∧ ∀ a ∈ chain, (a, r.2.1, r.2.2) ∈ expanded) ∧
    (∀ q ∈ expanded, ∃ r ∈ rows, ∃ chain, dget ancd r.1 = some chain ∧
      ∃ a ∈ chain, q = (a, r.2.1, r.2.2)) := by
  simp only [get_expanded_df] at hexp
  rw [hanc, ebind_ok] at hexp
  obtain ⟨tagged, htag, hout⟩ := except_bind_ok _ _ _ hexp
  have hexpand : expanded =
      tagged.flatMap (fun cr => (tabSplit cr.1.data).map (fun a => (a, cr.2.2.1, cr.2.2.2))) := by
    simpa using hout.symm
  have hround : ∀ k chain, (k, chain) ∈ ancd → tabSplit (tabJoin chain) = chain := by
    intro k chain hkc
    obtain ⟨⟨c', hc'⟩, hmem⟩ := get_ancestors_entries _ _ _ _ _ hanc (k, chain) hkc
    apply tabSplit_tabJoin
    · simp only at hc'
      rw [hc']
      simp
    · intro x hx
      obtain ⟨a, ha⟩ := hmem x hx
      exact hfree x (List.of_mem_zip (mem_dict_of_pairs _ _ ha)).2
  constructor
  · intro r hr chain hchain
    have hsplit : tabSplit (tabJoin chain) = chain :=
      hround r.1 chain (dget_mem _ _ _ hchain)
    have htagmem : (String.mk (tabJoin chain), r) ∈ tagged :=
      expand_tagged_mem ancd rows tagged htag r hr chain hchain
    have hfan : ∀ a ∈ chain, (a, r.2.1, r.2.2) ∈ expanded := by
      intro a ha
      rw [hexpand]
      refine List.mem_flatMap.mpr ⟨(String.mk (tabJoin chain), r), htagmem, ?_⟩
      refine List.mem_map.mpr ⟨a, ?_, rfl⟩
      show a ∈ tabSplit (String.mk (tabJoin chain)).data
      rw [show (String.mk (tabJoin chain)).data = tabJoin chain from rfl, hsplit]
      exact ha
    refine ⟨?_, hfan⟩
    obtain ⟨⟨c', hc'⟩, -⟩ := get_ancestors_entries _ _ _ _ _ hanc (r.1, chain)
      (dget_mem _ _ _ hchain)
    have hr1 : r.1 ∈ chain := by
      simp only at hc'
      rw [hc']
      simp
    exact hfan r.1 hr1
  · intro q hq
    rw [hexpand] at hq
    obtain ⟨cr, hcr, hqm⟩ := List.mem_flatMap.mp hq
    obtain ⟨a, ha, hqa⟩ := List.mem_map.mp hqm
    obtain ⟨hrow, chain, hlook, hcr1⟩ := expand_tagged_sound ancd rows tagged htag cr hcr
    have hdget : dget ancd cr.2.1 = some chain := by
      rw [lookupE] at hlook
      cases hd : dget ancd cr.2.1 with
      | none => rw [hd] at hlook; exact absurd hlook (by simp)
      | some v =>
        rw [hd] at hlook
        have hv : v = chain := by simpa using hlook
        exact congrArg some hv
    have hsplit : tabSplit (tabJoin chain) = chain :=
      hround cr.2.1 chain (dget_mem _ _ _ hdget)
    have ha' : a ∈ chain := by
      rw [hcr1] at ha
      rw [show (String.mk (tabJoin chain)).data = tabJoin chain from rfl, hsplit] at ha
      exact ha
    exact ⟨cr.2, hrow, chain, hdget, a, ha', hqa.symm⟩

/-- The concrete ancestors service of the spec's expansion scenario:
`GO:A` has the single ancestor `GO:R`, `GO:R` has none. -/
def scenarioAncServer : List String → List AncRes :=
  fun b => b.map (fun i => ⟨i, if i = "GO:A" then ["GO:R"] else []⟩)

/-- Counterexample to C6 as stated: with the catalogue name `"A\tB"`
containing the tab delimiter, the tab-joined chain `"Root\tA\tB"` is
re-split into the fragments `Root`, `A`, `B`, so the expanded table holds
those three fan-out rows and the direct row `(A\tB, X, p1)` is absent. -/
theorem get_expanded_df_tab_counterexample :
    get_expanded_df [("A\tB", "X", "p1")] ["GO:A", "GO:R"] ["A\tB", "Root"]
        scenarioAncServer =
      .ok [("Root", "X", "p1"), ("A", "X", "p1"), ("B", "X", "p1")] ∧
    ("A\tB", "X", "p1") ∉
      ([("Root", "X", "p1"), ("A", "X", "p1"), ("B", "X", "p1")] :
        List (String × String × String)) := by
  exact ⟨rfl, by decide⟩

/-- Witness for the amended C6 at the spec's scenario: tab-free catalogue
`{A ↦ GO:A, Root ↦ GO:R}`, direct row `(A, X, p1)`; the expanded table is
exactly `{(Root, X, p1), (A, X, p1)}` and contains the direct row plus its
`Root` fan-out. -/
theorem get_expanded_df_superset_witness :
    ("A", "X", "p1") ∈
      ([("Root", "X", "p1"), ("A", "X", "p1")] : List (String × String × String)) ∧
    ∀ a ∈ (["Root", "A"] : List String),
      (a, "X", "p1") ∈
        ([("Root", "X", "p1"), ("A", "X", "p1")] : List (String × String × String)) := by
  have h := (get_expanded_df_superset [("A", "X", "p1")] ["GO:A", "GO:R"] ["A", "Root"]
    scenarioAncServer [("A", ["Root", "A"])] [("Root", "X", "p1"), ("A", "X", "p1")]
    (by decide) rfl rfl).1 ("A", "X", "p1") (by decide) ["Root", "A"] rfl
  exact ⟨h.1, fun a ha => h.2 a ha⟩
